import Mathlib

/-!
Verification of the `sched` package of the goodbus repository.

The Go sources are shallowly embedded: `monotonicTime` (an `int64`
nanosecond count) becomes `Int`, `time.Duration` becomes `Int`,
the `Flags uint32` bitset becomes `Nat` with `&&&`/`|||`
(no claim exercises 32-bit overflow, so the arithmetic is exact),
the `container/heap` min-heap behind `ScheduleQueue` becomes a list kept
sorted by ascending trigger time (Peek/Pop act on the head, the minimum),
and the `container/ring` circle behind `ScheduleRing` becomes a list whose
head is the element under the cursor and whose order is cycle order.
The opaque `Command` is represented by its observable behaviour: whether
`Execute` returns an error is a boolean parameter, and `Finalize`
invocations are counted.  `sync.Once` becomes the boolean latch
`onceUsed`.  The name registry `scheduleMap` becomes an association list.
-/

namespace Goodbus

/-! ### Monotonic time (sched/monotonic time source) -/

/-- `monotonicTime` is an `int64` nanosecond count; embedded as `Int`. -/
abbrev monotonicTime := Int

/-- Farthest monotonic time point in the future (`math.MaxInt64`). -/
def inTheFuture : Int := 2 ^ 63 - 1

/-! ### Schedule flags (sched/schedule.go) -/

/-- `ScheduleRepeat = 1 << iota` with iota 0. -/
def ScheduleRepeat : Nat := 1

/-- `ScheduleIdle`, second bit. -/
def ScheduleIdle : Nat := 2

/-- `ScheduleBurst`, third bit. -/
def ScheduleBurst : Nat := 4

/-- `ScheduleRemoveOnError`, fourth bit. -/
def ScheduleRemoveOnError : Nat := 8

/-- `scheduleRemoved`, fifth bit, internal. -/
def scheduleRemoved : Nat := 16

/-- The `Schedule` struct of sched/schedule.go.  The `command` field is
not embedded here; the behaviour of the opaque command is supplied as a
parameter wherever the scheduler invokes it.  `onceUsed` is the state of
the `once sync.Once` latch: `true` once `once.Do` has run its argument. -/
structure Schedule where
  Flags : Nat
  MinWait : Int
  MaxWait : Int
  name : String
  triggerTime : Int
  onceUsed : Bool
deriving DecidableEq

/-- `getFlags` atomically obtains the schedule flags. -/
def Schedule.getFlags (s : Schedule) : Nat := s.Flags

/-- `markRemoved` atomically sets the `scheduleRemoved` bit. -/
def Schedule.markRemoved (s : Schedule) : Schedule :=
  { s with Flags := s.Flags ||| scheduleRemoved }

/-! ### Priority queue (sched/queue.go over container/heap)

The heap is embedded as a list sorted by ascending `triggerTime`; the
head is the heap minimum.  `Peek` and `Pop` of the Go wrapper return the
minimum; `Push` inserts keeping the order.  Tie order among equal trigger
times is unspecified by the heap and irrelevant to the claims. -/

/-- A `ScheduleQueue` value: list sorted by ascending trigger time. -/
abbrev ScheduleQueue := List Schedule

/-- `Peek` returns the minimal element without removing it, `nil` (here
`none`) if the queue is empty. -/
def ScheduleQueue.Peek (q : List Schedule) : Option Schedule := q.head?

/-- `Pop` removes the minimal element (the head of the sorted list). -/
def ScheduleQueue.Pop (q : List Schedule) : List Schedule := q.tail

/-- `Push` inserts a schedule into the priority queue. -/
def ScheduleQueue.Push (x : Schedule) : List Schedule → List Schedule
  | [] => [x]
  | b :: l =>
      if x.triggerTime ≤ b.triggerTime then x :: b :: l
      else b :: ScheduleQueue.Push x l

/-! ### Idle ring (sched ring file over container/ring)

A ring state is the list of elements in cycle order starting at the
cursor: the head is the element the cursor is on. -/

/-- A `ScheduleRing` value: elements in cycle order, cursor at head. -/
abbrev ScheduleRing := List Schedule

/-- `IsEmpty` checks whether the ring is empty (`sr.ring == nil`). -/
def ScheduleRing.IsEmpty (r : List Schedule) : Bool := r.isEmpty

/-- `Insert` links a fresh node holding `x` immediately before the
cursor node and moves the ring pointer onto the fresh node. -/
def ScheduleRing.Insert (x : Schedule) (r : List Schedule) : List Schedule :=
  x :: r

/-- `Next` advances the cursor one step and returns the element now
under it, or `none` if the ring is empty. -/
def ScheduleRing.Next : List Schedule → Option Schedule × List Schedule
  | [] => (none, [])
  | c :: rest => ((rest ++ [c]).head?, rest ++ [c])

/-- `Remove` deletes the element most recently returned by `Next` (the
cursor element) and leaves the cursor on its predecessor. -/
def ScheduleRing.Remove : List Schedule → List Schedule
  | [] => []
  | _ :: rest =>
      match rest.getLast? with
      | none => []
      | some p => p :: rest.dropLast

/-- Results and final state of `n` consecutive calls to
`ScheduleRing.Next`, collecting the returned elements in order. -/
def ScheduleRing.nextN : Nat → List Schedule → List Schedule × List Schedule
  | 0, l => ([], l)
  | n + 1, l =>
      let r := ScheduleRing.Next l
      let rest := ScheduleRing.nextN n r.2
      (r.1.toList ++ rest.1, rest.2)

/-! ### Execution sub-procedure (sched/scheduler.go, `Scheduler.execute`) -/

/-- Deletion of a key from the `scheduleMap` (Go `delete(map, name)`),
with the map embedded as an association list from names to task ids. -/
def deleteName (n : String) (m : List (String × Nat)) : List (String × Nat) :=
  m.filter (fun e => decide (e.1 ≠ n))

/-- Observable outcome of one `Scheduler.execute` call: the verdict, the
side effects on the command (whether `Execute` ran, whether an error was
sent to the error channel, whether `Finalize` fired through the once
latch), the updated schedule record, and the updated registry. -/
structure ExecOutcome where
  shouldRemove : Bool
  commandInvoked : Bool
  errorEmitted : Bool
  finalizeFired : Bool
  schedule : Schedule
  scheduleMap : List (String × Nat)
deriving DecidableEq

/-- `Scheduler.execute` of sched/scheduler.go.  `cmdErr` is the
behaviour of the opaque `candidate.command.Execute()` call: `true` iff
it returns a non-nil error.  The registry is passed explicitly. -/
def Scheduler.execute (candidate : Schedule) (cmdErr : Bool)
    (scheduleMap : List (String × Nat)) : ExecOutcome :=
  let flags := candidate.getFlags
  let step1 : Bool × Bool × Bool :=
    -- (shouldRemove so far, command invoked, error emitted)
    if flags &&& scheduleRemoved = 0 then
      if cmdErr then
        (if flags &&& ScheduleRemoveOnError ≠ 0 then true else false, true, true)
      else (false, true, false)
    else (true, false, false)
  let shouldRemove := if flags &&& ScheduleRepeat = 0 then true else step1.1
  if shouldRemove then
    { shouldRemove := true
      commandInvoked := step1.2.1
      errorEmitted := step1.2.2
      finalizeFired := !candidate.onceUsed
      schedule := { candidate.markRemoved with onceUsed := true }
      scheduleMap := deleteName candidate.name scheduleMap }
  else
    { shouldRemove := false
      commandInvoked := step1.2.1
      errorEmitted := step1.2.2
      finalizeFired := false
      schedule := candidate
      scheduleMap := scheduleMap }

/-! ### Worker tick steps (sched/scheduler.go, `Scheduler.doSomeWork`) -/

/-- Step 1 of a tick (lines 119-125): move the head of the waiting queue
to the pending queue when its trigger time is not after `now`, advancing
the trigger time by `MaxWait - MinWait`. -/
def promoteWaitingStep (wq pq : List Schedule) (now : Int) :
    List Schedule × List Schedule :=
  match ScheduleQueue.Peek wq with
  | none => (wq, pq)
  | some candidate =>
      if candidate.triggerTime ≤ now then
        (ScheduleQueue.Pop wq,
         ScheduleQueue.Push
           { candidate with
             triggerTime :=
               candidate.triggerTime + (candidate.MaxWait - candidate.MinWait) }
           pq)
      else (wq, pq)

/-- The rescheduling of a kept candidate (lines 135-139): advance the
trigger time by `MinWait`; if it is then still before `now` and the
burst flag is clear, snap it to `now + MinWait`.  The flag re-load of
line 136 yields the same flags in this single-threaded model. -/
def rescheduleKeep (sch : Schedule) (now : Int) : Int :=
  let t := sch.triggerTime + sch.MinWait
  if t < now ∧ sch.Flags &&& ScheduleBurst = 0 then now + sch.MinWait else t

/-- Result of the pending-execution step of a tick. -/
structure PendingStepResult where
  waitingQueue : List Schedule
  pendingQueue : List Schedule
  didExecute : Bool
  outcome : Option ExecOutcome
deriving DecidableEq

/-- Step 2 of a tick (lines 127-142): if the pending head's trigger time
is strictly before `now`, pop it and run `Scheduler.execute`; a kept
candidate is rescheduled and pushed back into the waiting queue. -/
def executePendingStep (wq pq : List Schedule) (now : Int) (cmdErr : Bool)
    (m : List (String × Nat)) : PendingStepResult :=
  match ScheduleQueue.Peek pq with
  | none => ⟨wq, pq, false, none⟩
  | some candidate =>
      if candidate.triggerTime < now then
        let pq1 := ScheduleQueue.Pop pq
        let o := Scheduler.execute candidate cmdErr m
        if o.shouldRemove then ⟨wq, pq1, true, some o⟩
        else
          ⟨ScheduleQueue.Push
             { candidate with triggerTime := rescheduleKeep candidate now } wq,
           pq1, true, some o⟩
      else ⟨wq, pq, false, none⟩

/-- The deadline computation of Step 4 (lines 156-164): start from
`inTheFuture`, overwrite with the waiting head's trigger time if any,
then lower to the pending head's trigger time if that is smaller. -/
def laterOf (wq pq : List Schedule) : Int :=
  let later := inTheFuture
  let later :=
    match ScheduleQueue.Peek wq with
    | some candidate => candidate.triggerTime
    | none => later
  match ScheduleQueue.Peek pq with
  | some candidate =>
      if later > candidate.triggerTime then candidate.triggerTime else later
  | none => later

/-- The branch selection of Step 4 (line 165): the worker polls the
ingress channel without blocking exactly when this is `true`; otherwise
it blocks on the select over ingress and `time.After(later - now)`. -/
def nonBlockingPoll (didExecute : Bool) (later now : Int) : Bool :=
  didExecute || decide (later < now)

/-! ### Task submission (sched/scheduler.go, `Scheduler.Add`) -/

/-- The scheduler state `Add` can touch: the name registry (here with
full schedule records as values, as in Go) and the ingress channel
(`scheduleChan`), embedded as the list of not-yet-consumed sends. -/
structure AddState where
  scheduleMap : List (String × Schedule)
  ingress : List Schedule
deriving DecidableEq

/-- Go map read `scheduleMap[name]`. -/
def lookupSched : List (String × Schedule) → String → Option Schedule
  | [], _ => none
  | (n, sch) :: rest, m => if n = m then some sch else lookupSched rest m

/-- Go map write `scheduleMap[name] = v` (replaces the key). -/
def insertSched (n : String) (sch : Schedule) (m : List (String × Schedule)) :
    List (String × Schedule) :=
  (n, sch) :: m.filter (fun e => decide (e.1 ≠ n))

/-- `Scheduler.Add` (lines 265-287).  `commandIsNil` tells whether the
opaque `command` argument is the nil interface.  The second component is
the returned error: `none` on success.  The caller-supplied `schedule`
carries the public fields `Flags`, `MinWait`, `MaxWait`. -/
def Scheduler.Add (st : AddState) (nm : String) (commandIsNil : Bool)
    (schedule : Schedule) : AddState × Option String :=
  let collision :=
    match lookupSched st.scheduleMap nm with
    | some oldSchedule => decide (oldSchedule.getFlags &&& scheduleRemoved = 0)
    | none => false
  if collision then (st, some "a schedule with this name already exists")
  else if commandIsNil then (st, some "attempting to add schedule with nil command")
  else if schedule.MinWait < 0 then (st, some "negative minimum wait")
  else if schedule.MaxWait < schedule.MinWait then
    (st, some "maximum wait smaller than minimum wait")
  else
    let sched := { schedule with name := nm }
    ({ scheduleMap := insertSched nm sched st.scheduleMap
       ingress := st.ingress ++ [sched] }, none)

/-- The rejection condition of `Add` as the spec states it: a live task
of the same name, a nil command, or invalid wait bounds. -/
def addRejects (st : AddState) (nm : String) (commandIsNil : Bool)
    (schedule : Schedule) : Prop :=
  (∃ oldSchedule, lookupSched st.scheduleMap nm = some oldSchedule ∧
      oldSchedule.Flags &&& scheduleRemoved = 0) ∨
  commandIsNil = true ∨ schedule.MinWait < 0 ∨ schedule.MaxWait < schedule.MinWait

/-! ### Stop lifecycle (sched/scheduler.go, `SignalStop`/`WaitStop`) -/

/-- The lifecycle state `SignalStop` interacts with: the `isRunning`
flag and whether `scheduleChan` has been closed. -/
structure Lifecycle where
  isRunning : Bool
  scheduleChanClosed : Bool
deriving DecidableEq

/-- `Scheduler.SignalStop` (lines 238-242): close the ingress channel if
`isRunning`.  Go panics on closing a closed channel; the panic is the
`none` result. -/
def Scheduler.SignalStop (s : Lifecycle) : Option Lifecycle :=
  if s.isRunning then
    if s.scheduleChanClosed then none
    else some { s with scheduleChanClosed := true }
  else some s

/-! ### Task lifetime and the finalize-once latch (for the whole-life
invariants).  A lifetime is a sequence of events touching one schedule
record: worker passes through `Scheduler.execute` (each with the
behaviour of the command on that run) and producer `Remove` calls, which
only set the removed bit via `markRemoved`. -/

/-- One event in the lifetime of a single task. -/
inductive LifeEvent where
  | workerPass (cmdErr : Bool)
  | producerRemove
deriving DecidableEq

/-- Running lifetime state: the schedule record, how many times
`command.Finalize` has actually run, and whether any worker pass has
returned the remove verdict (the task was retired). -/
structure LifeState where
  schedule : Schedule
  finalizeCount : Nat
  retiredEver : Bool
deriving DecidableEq

/-- Effect of one lifetime event. -/
def lifeStep (st : LifeState) (e : LifeEvent) : LifeState :=
  match e with
  | .workerPass cmdErr =>
      let o := Scheduler.execute st.schedule cmdErr []
      { schedule := o.schedule
        finalizeCount := st.finalizeCount + (if o.finalizeFired then 1 else 0)
        retiredEver := st.retiredEver || o.shouldRemove }
  | .producerRemove => { st with schedule := st.schedule.markRemoved }

/-- A whole lifetime from a freshly submitted schedule. -/
def lifeRun (s0 : Schedule) (es : List LifeEvent) : LifeState :=
  es.foldl lifeStep { schedule := s0, finalizeCount := 0, retiredEver := false }

/-! ### Registry-level trace model (for the name-registry invariants)

Tasks are identified by allocation order (`nextId`), standing in for Go
pointer identity.  `store` records every schedule record ever created
together with its current flags; `reg` is `scheduleMap` as an
association list from names to ids; `retired` lists the ids on which the
worker has already run the retirement block of `Scheduler.execute`
(line 102-108) — a schedule leaves all scheduler containers when it is
retired, so that block runs at most once per schedule. -/

structure SchedCore where
  store : List (Nat × Schedule)
  reg : List (String × Nat)
  retired : List Nat
  nextId : Nat
deriving DecidableEq

/-- Resolve a task id (a Go pointer dereference). -/
def lookupId : List (Nat × Schedule) → Nat → Option Schedule
  | [], _ => none
  | (k, sch) :: rest, i => if k = i then some sch else lookupId rest i

/-- Go map read `scheduleMap[name]` at the registry level. -/
def lookupReg : List (String × Nat) → String → Option Nat
  | [], _ => none
  | (n, i) :: rest, m => if n = m then some i else lookupReg rest m

/-- Go map write `scheduleMap[name] = p` (replaces the key). -/
def regInsert (n : String) (i : Nat) (m : List (String × Nat)) :
    List (String × Nat) :=
  (n, i) :: m.filter (fun e => decide (e.1 ≠ n))

/-- `markRemoved` applied through a pointer: update the stored record. -/
def setRemovedBit (i : Nat) (st : List (Nat × Schedule)) :
    List (Nat × Schedule) :=
  st.map (fun e => if e.1 = i then (e.1, e.2.markRemoved) else e)

/-- The registry-relevant effect of a successful or colliding
`Scheduler.Add`: reject when the name resolves to a schedule without the
removed bit, otherwise create a fresh record and bind the name to it.
The second component is the id of the created task, `none` on error. -/
def SchedCore.addOp (s : SchedCore) (nm : String) (flags : Nat) :
    SchedCore × Option Nat :=
  let live :=
    match lookupReg s.reg nm with
    | some i =>
        match lookupId s.store i with
        | some oldSchedule => decide (oldSchedule.Flags &&& scheduleRemoved = 0)
        | none => false
    | none => false
  if live then (s, none)
  else
    let k := s.nextId
    let sch : Schedule :=
      { Flags := flags, MinWait := 0, MaxWait := 0, name := nm,
        triggerTime := 0, onceUsed := false }
    ({ store := (k, sch) :: s.store
       reg := regInsert nm k s.reg
       retired := s.retired
       nextId := k + 1 }, some k)

/-- `Scheduler.Remove` (lines 292-302): look the name up; if it resolves
to a schedule without the removed bit, mark that schedule removed. -/
def SchedCore.removeOp (s : SchedCore) (nm : String) : SchedCore :=
  match lookupReg s.reg nm with
  | some i =>
      match lookupId s.store i with
      | some oldSchedule =>
          if oldSchedule.Flags &&& scheduleRemoved ≠ 0 then s
          else { s with store := setRemovedBit i s.store }
      | none => s
  | none => s

/-- The retirement block of `Scheduler.execute` (lines 102-108) run by
the worker on the schedule with id `i`: mark it removed and delete its
name from the registry. -/
def SchedCore.retireOp (s : SchedCore) (i : Nat) : SchedCore :=
  match lookupId s.store i with
  | some sch =>
      { store := setRemovedBit i s.store
        reg := deleteName sch.name s.reg
        retired := i :: s.retired
        nextId := s.nextId }
  | none => s

/-- The empty, just-started scheduler. -/
def coreInit : SchedCore := ⟨[], [], [], 0⟩

/-- The bijection between registry entries and live tasks as the claim
states it: every live task is registered under its name, and every
registry entry resolves to a live task of that name. -/
def liveRegBijection (s : SchedCore) : Prop :=
  (∀ i sch, lookupId s.store i = some sch →
      sch.Flags &&& scheduleRemoved = 0 → lookupReg s.reg sch.name = some i) ∧
  (∀ nm i, lookupReg s.reg nm = some i →
      ∃ sch, lookupId s.store i = some sch ∧ sch.name = nm ∧
        sch.Flags &&& scheduleRemoved = 0)

/-- The state after add X, remove X, add X again, and worker retirement
of the first X instance. -/
def coreTrace : SchedCore :=
  let s1 := (coreInit.addOp "X" ScheduleRepeat).1
  let s2 := s1.removeOp "X"
  let s3 := (s2.addOp "X" ScheduleRepeat).1
  s3.retireOp 0

/-- States reachable by the registry-level operations when every add
uses a name not currently bound in the registry and the worker retires
each schedule at most once (as it does: a retired schedule has left all
scheduler containers). -/
inductive CoreReachable : SchedCore → Prop where
  | init : CoreReachable coreInit
  | add (s : SchedCore) (nm : String) (flags : Nat) :
      CoreReachable s → lookupReg s.reg nm = none →
      CoreReachable (s.addOp nm flags).1
  | remove (s : SchedCore) (nm : String) :
      CoreReachable s → CoreReachable (s.removeOp nm)
  | retire (s : SchedCore) (i : Nat) :
      CoreReachable s → i ∉ s.retired → CoreReachable (s.retireOp i)

/-! ## Helper lemmas -/

theorem nat_lor_land_self (n m : Nat) : (n ||| m) &&& m = m := by
  apply Nat.eq_of_testBit_eq
  intro i
  rw [Nat.testBit_land, Nat.testBit_lor]
  cases Nat.testBit n i <;> cases Nat.testBit m i <;> rfl

theorem push_length (x : Schedule) (q : List Schedule) :
    (ScheduleQueue.Push x q).length = q.length + 1 := by
  induction q with
  | nil => rfl
  | cons b l ih =>
      simp only [ScheduleQueue.Push]
      split <;> simp [ih]

/-! ## C10: SignalStop is not idempotent while running -/

/-- C10: while the scheduler is running, `SignalStop` is guarded only by
the `isRunning` flag, which it does not clear; a first call closes the
ingress channel and a second call before `WaitStop` closes the
already-closed channel, which panics. -/
theorem signalStop_not_idempotent (s : Lifecycle)
    (hrun : s.isRunning = true) (hopen : s.scheduleChanClosed = false) :
    ∃ s', Scheduler.SignalStop s = some s' ∧ s'.isRunning = true ∧
      s'.scheduleChanClosed = true ∧ Scheduler.SignalStop s' = none := by
  refine ⟨{ s with scheduleChanClosed := true }, ?_, hrun, rfl, ?_⟩ <;>
    simp [Scheduler.SignalStop, hrun, hopen]

/-- Witness for C10 at the freshly started scheduler state. -/
theorem signalStop_not_idempotent_witness :
    ∃ s', Scheduler.SignalStop ⟨true, false⟩ = some s' ∧ s'.isRunning = true ∧
      s'.scheduleChanClosed = true ∧ Scheduler.SignalStop s' = none :=
  signalStop_not_idempotent ⟨true, false⟩ rfl rfl

/-! ## C2: promotion from waiting to pending -/

/-- C2: in one tick, a waiting head due at or before `now` (non-strict)
is popped, its trigger time advanced by `MaxWait - MinWait`, and pushed
into the pending queue; at most one promotion happens per tick and a
head strictly after `now` causes no promotion. -/
theorem promote_waiting_spec (wq pq : List Schedule) (now : Int) :
    (∀ w rest, wq = w :: rest → w.triggerTime ≤ now →
        promoteWaitingStep wq pq now =
          (rest,
           ScheduleQueue.Push
             { w with triggerTime := w.triggerTime + (w.MaxWait - w.MinWait) }
             pq) ∧
        (promoteWaitingStep wq pq now).2.length = pq.length + 1) ∧
    (∀ w rest, wq = w :: rest → now < w.triggerTime →
        promoteWaitingStep wq pq now = (wq, pq)) ∧
    (promoteWaitingStep wq pq now).2.length ≤ pq.length + 1 := by
  refine ⟨?_, ?_, ?_⟩
  · intro w rest hwq hle
    subst hwq
    simp [promoteWaitingStep, ScheduleQueue.Peek, ScheduleQueue.Pop, hle,
      push_length]
  · intro w rest hwq hgt
    subst hwq
    simp [promoteWaitingStep, ScheduleQueue.Peek, not_le.mpr hgt]
  · cases wq with
    | nil => simp [promoteWaitingStep, ScheduleQueue.Peek]
    | cons w rest =>
        simp only [promoteWaitingStep, ScheduleQueue.Peek, List.head?]
        split <;> simp [push_length]

/-- Witness for C2 on a one-element waiting queue. -/
theorem promote_waiting_spec_witness :
    promoteWaitingStep
        [{ Flags := 1, MinWait := 2, MaxWait := 6, name := "w",
           triggerTime := 3, onceUsed := false }] [] 5 =
      ([],
       ScheduleQueue.Push
         { Flags := 1, MinWait := 2, MaxWait := 6, name := "w",
           triggerTime := 3 + (6 - 2), onceUsed := false } []) :=
  ((promote_waiting_spec _ [] 5).1 _ [] rfl (by decide)).1

/-! ## C1: executing the pending head -/

/-- C1: in one tick, a pending head strictly before `now` is popped and
executed; on the keep verdict the trigger time is advanced by `MinWait`
and, if then still strictly before `now` with the burst flag clear,
snapped to `now + MinWait`, and the task is pushed back into the waiting
queue; a pending head exactly at `now` is not executed this tick. -/
theorem pending_execute_spec (wq pq : List Schedule) (now : Int)
    (cmdErr : Bool) (m : List (String × Nat)) :
    (∀ p rest, pq = p :: rest → p.triggerTime < now →
        (executePendingStep wq pq now cmdErr m).didExecute = true ∧
        (executePendingStep wq pq now cmdErr m).pendingQueue = rest ∧
        (executePendingStep wq pq now cmdErr m).outcome =
          some (Scheduler.execute p cmdErr m) ∧
        ((Scheduler.execute p cmdErr m).shouldRemove = false →
          (executePendingStep wq pq now cmdErr m).waitingQueue =
            ScheduleQueue.Push
              { p with
                triggerTime :=
                  if p.triggerTime + p.MinWait < now ∧
                      p.Flags &&& ScheduleBurst = 0
                  then now + p.MinWait
                  else p.triggerTime + p.MinWait }
              wq)) ∧
    (∀ p rest, pq = p :: rest → p.triggerTime = now →
        executePendingStep wq pq now cmdErr m = ⟨wq, pq, false, none⟩) := by
  constructor
  · intro p rest hpq hlt
    subst hpq
    by_cases hsr : (Scheduler.execute p cmdErr m).shouldRemove = true
    · simp [executePendingStep, ScheduleQueue.Peek, ScheduleQueue.Pop, hlt, hsr]
    · simp only [Bool.not_eq_true] at hsr
      simp [executePendingStep, ScheduleQueue.Peek, ScheduleQueue.Pop, hlt,
        hsr, rescheduleKeep]
  · intro p rest hpq heq
    subst hpq
    simp [executePendingStep, ScheduleQueue.Peek, heq]

/-- Witness for C1: a repeating schedule due before `now` executes and
is pushed back into the waiting queue. -/
theorem pending_execute_spec_witness :
    (executePendingStep []
        [{ Flags := 1, MinWait := 10, MaxWait := 10, name := "p",
           triggerTime := 0, onceUsed := false }] 5 false []).didExecute =
        true ∧
    (executePendingStep []
        [{ Flags := 1, MinWait := 10, MaxWait := 10, name := "p",
           triggerTime := 0, onceUsed := false }] 5 false []).pendingQueue =
        [] := by
  have h := (pending_execute_spec []
      [{ Flags := 1, MinWait := 10, MaxWait := 10, name := "p",
         triggerTime := 0, onceUsed := false }] 5 false []).1 _ [] rfl
      (by decide)
  exact ⟨h.1, h.2.1⟩

/-! ## C4: REMOVED bit short-circuits execution -/

/-- C4: when the worker's execution sub-procedure loads flags that carry
the removed bit, the command is not invoked and the task is retired: the
removed bit remains set, its name is deleted from the registry, and its
finalizer fires through the fresh once latch.  Hence a remove that takes
effect before the worker begins executing the command guarantees the
command does not run. -/
theorem execute_removed_retires (c : Schedule) (cmdErr : Bool)
    (m : List (String × Nat))
    (hrem : c.Flags &&& scheduleRemoved ≠ 0) (honce : c.onceUsed = false) :
    (Scheduler.execute c cmdErr m).commandInvoked = false ∧
    (Scheduler.execute c cmdErr m).shouldRemove = true ∧
    (Scheduler.execute c cmdErr m).schedule.Flags &&& scheduleRemoved ≠ 0 ∧
    (Scheduler.execute c cmdErr m).scheduleMap = deleteName c.name m ∧
    (Scheduler.execute c cmdErr m).finalizeFired = true := by
  simp only [Scheduler.execute, Schedule.getFlags, if_neg hrem, ite_self]
  simp [Schedule.markRemoved, nat_lor_land_self, scheduleRemoved, honce]

/-- Witness for C4 on a schedule already marked removed. -/
theorem execute_removed_retires_witness :
    (Scheduler.execute
        { Flags := scheduleRemoved, MinWait := 0, MaxWait := 0, name := "r",
          triggerTime := 0, onceUsed := false } false
        [("r", 0)]).commandInvoked = false ∧
    (Scheduler.execute
        { Flags := scheduleRemoved, MinWait := 0, MaxWait := 0, name := "r",
          triggerTime := 0, onceUsed := false } false
        [("r", 0)]).shouldRemove = true ∧
    (Scheduler.execute
        { Flags := scheduleRemoved, MinWait := 0, MaxWait := 0, name := "r",
          triggerTime := 0, onceUsed := false } false
        [("r", 0)]).schedule.Flags &&& scheduleRemoved ≠ 0 ∧
    (Scheduler.execute
        { Flags := scheduleRemoved, MinWait := 0, MaxWait := 0, name := "r",
          triggerTime := 0, onceUsed := false } false
        [("r", 0)]).scheduleMap =
      deleteName "r" [("r", 0)] ∧
    (Scheduler.execute
        { Flags := scheduleRemoved, MinWait := 0, MaxWait := 0, name := "r",
          triggerTime := 0, onceUsed := false } false
        [("r", 0)]).finalizeFired = true :=
  execute_removed_retires _ false [("r", 0)] (by decide) rfl

/-! ## C6: Add validation and side effects -/

/-- C6: `Add` returns an error exactly when a live task of the same name
exists, the command is nil, `MinWait` is negative, or `MaxWait` is below
`MinWait`; a rejection leaves the state unchanged, and success inserts
the named schedule into the registry and enqueues it on ingress. -/
theorem add_spec (st : AddState) (nm : String) (commandIsNil : Bool)
    (schedule : Schedule) :
    ((Scheduler.Add st nm commandIsNil schedule).2.isSome ↔
        addRejects st nm commandIsNil schedule) ∧
    ((Scheduler.Add st nm commandIsNil schedule).2.isSome →
        (Scheduler.Add st nm commandIsNil schedule).1 = st) ∧
    ((Scheduler.Add st nm commandIsNil schedule).2 = none →
        (Scheduler.Add st nm commandIsNil schedule).1.scheduleMap =
          insertSched nm { schedule with name := nm } st.scheduleMap ∧
        (Scheduler.Add st nm commandIsNil schedule).1.ingress =
          st.ingress ++ [{ schedule with name := nm }]) := by
  cases hl : lookupSched st.scheduleMap nm with
  | none =>
      by_cases hn : commandIsNil = true
      · simp [Scheduler.Add, addRejects, hl, hn]
      · by_cases hmin : schedule.MinWait < 0
        · simp [Scheduler.Add, addRejects, hl, hn, hmin]
        · by_cases hmax : schedule.MaxWait < schedule.MinWait
          · simp [Scheduler.Add, addRejects, hl, hn, hmin, hmax]
          · simp [Scheduler.Add, addRejects, hl, hn, hmin, hmax]
  | some old =>
      by_cases hlive : old.Flags &&& scheduleRemoved = 0
      · simp [Scheduler.Add, addRejects, hl, Schedule.getFlags, hlive]
      · by_cases hn : commandIsNil = true
        · simp [Scheduler.Add, addRejects, hl, Schedule.getFlags, hlive, hn]
        · by_cases hmin : schedule.MinWait < 0
          · simp [Scheduler.Add, addRejects, hl, Schedule.getFlags, hlive,
              hn, hmin]
          · by_cases hmax : schedule.MaxWait < schedule.MinWait
            · simp [Scheduler.Add, addRejects, hl, Schedule.getFlags, hlive,
                hn, hmin, hmax]
            · simp [Scheduler.Add, addRejects, hl, Schedule.getFlags, hlive,
                hn, hmin, hmax]

/-- Witness for C6: a valid submission on an empty scheduler succeeds
and enqueues the named schedule. -/
theorem add_spec_witness :
    (Scheduler.Add ⟨[], []⟩ "a" false
        { Flags := 1, MinWait := 0, MaxWait := 5, name := "",
          triggerTime := 0, onceUsed := false }).1.ingress =
      [] ++ [{ Flags := 1, MinWait := 0, MaxWait := 5, name := "a",
               triggerTime := 0, onceUsed := false }] :=
  ((add_spec ⟨[], []⟩ "a" false
      { Flags := 1, MinWait := 0, MaxWait := 5, name := "",
        triggerTime := 0, onceUsed := false }).2.2 (by decide)).2

/-! ## C3: Step 4 poll condition (strict comparison in the code) -/

/-- A schedule whose trigger time equals the current instant. -/
def zeroSched : Schedule :=
  { Flags := 1, MinWait := 0, MaxWait := 0, name := "z",
    triggerTime := 0, onceUsed := false }

/-- C3 counterexample: with nothing executed and the earliest deadline
`later` equal to `now`, the code takes the blocking branch, refuting the
claimed poll condition `did_execute OR later ≤ now`. -/
theorem step4_poll_claim_false :
    ¬ (nonBlockingPoll false (laterOf [zeroSched] []) 0 =
        (false || decide (laterOf [zeroSched] [] ≤ (0 : Int)))) := by
  decide

/-- C3 amended: `later` is the minimum of the two heads' trigger times
and `inTheFuture`, and the worker polls the ingress channel without
blocking exactly when `did_execute` is true or `later < now` holds
strictly; at `later = now` with nothing executed it blocks on ingress or
a zero-duration timer. -/
theorem step4_poll_amended (wq pq : List Schedule) (didExecute : Bool)
    (now : Int) (hw : ∀ s ∈ wq, s.triggerTime ≤ inTheFuture) :
    laterOf wq pq =
      min (min ((ScheduleQueue.Peek wq).elim inTheFuture Schedule.triggerTime)
               ((ScheduleQueue.Peek pq).elim inTheFuture Schedule.triggerTime))
          inTheFuture ∧
    (nonBlockingPoll didExecute (laterOf wq pq) now = true ↔
      didExecute = true ∨ laterOf wq pq < now) := by
  constructor
  · cases wq with
    | nil =>
        cases pq with
        | nil => simp [laterOf, ScheduleQueue.Peek]
        | cons p ps =>
            simp only [laterOf, ScheduleQueue.Peek, List.head?, Option.elim,
              min_def]
            split_ifs <;> omega
    | cons w ws =>
        have hwf : w.triggerTime ≤ inTheFuture := hw w (by simp)
        cases pq with
        | nil =>
            simp only [laterOf, ScheduleQueue.Peek, List.head?, Option.elim,
              min_def]
            split_ifs <;> omega
        | cons p ps =>
            simp only [laterOf, ScheduleQueue.Peek, List.head?, Option.elim,
              min_def]
            split_ifs <;> omega
  · simp [nonBlockingPoll]

/-- Witness for C3's amended statement on a singleton waiting queue. -/
theorem step4_poll_amended_witness :
    laterOf [zeroSched] [] =
      min (min ((ScheduleQueue.Peek [zeroSched]).elim inTheFuture
                  Schedule.triggerTime)
               ((ScheduleQueue.Peek ([] : List Schedule)).elim inTheFuture
                  Schedule.triggerTime))
          inTheFuture ∧
    (nonBlockingPoll false (laterOf [zeroSched] []) 0 = true ↔
      false = true ∨ laterOf [zeroSched] [] < 0) :=
  step4_poll_amended [zeroSched] [] false 0 (by
    intro s hs
    rw [List.mem_singleton] at hs
    subst hs
    decide)

/-! ## C5: finalize fires at most once, exactly once on retirement -/

/-- Inductive invariant of a task lifetime: the number of `Finalize`
runs mirrors the once latch, and a retired task has used its latch. -/
def lifeInv (st : LifeState) : Prop :=
  st.finalizeCount = (if st.schedule.onceUsed then 1 else 0) ∧
  (st.retiredEver = true → st.schedule.onceUsed = true)

theorem lifeStep_inv (st : LifeState) (e : LifeEvent) (h : lifeInv st) :
    lifeInv (lifeStep st e) := by
  obtain ⟨h1, h2⟩ := h
  cases e with
  | producerRemove =>
      exact ⟨by simpa [Schedule.markRemoved] using h1,
             by simpa [Schedule.markRemoved] using h2⟩
  | workerPass cmdErr =>
      by_cases hrm : st.schedule.Flags &&& scheduleRemoved = 0 <;>
        by_cases hre : st.schedule.Flags &&& ScheduleRemoveOnError = 0 <;>
        by_cases hrp : st.schedule.Flags &&& ScheduleRepeat = 0 <;>
        cases cmdErr <;>
        cases hu : st.schedule.onceUsed <;>
        simp_all [lifeInv, lifeStep, Scheduler.execute, Schedule.getFlags,
          Schedule.markRemoved]

theorem lifeRun_foldl_inv (es : List LifeEvent) :
    ∀ st : LifeState, lifeInv st → lifeInv (es.foldl lifeStep st) := by
  induction es with
  | nil => intro st h; exact h
  | cons e rest ih =>
      intro st h
      exact ih (lifeStep st e) (lifeStep_inv st e h)

/-- C5: over any lifetime of a task submitted with a fresh once latch,
`command.Finalize` runs at most once, and exactly once as soon as some
worker pass has retired the task. -/
theorem finalize_once (s0 : Schedule) (es : List LifeEvent)
    (h0 : s0.onceUsed = false) :
    (lifeRun s0 es).finalizeCount ≤ 1 ∧
    ((lifeRun s0 es).retiredEver = true →
      (lifeRun s0 es).finalizeCount = 1) := by
  have hbase : lifeInv ⟨s0, 0, false⟩ := ⟨by simp [h0], by simp⟩
  obtain ⟨h1, h2⟩ := lifeRun_foldl_inv es ⟨s0, 0, false⟩ hbase
  have e1 : (lifeRun s0 es).finalizeCount =
      (es.foldl lifeStep ⟨s0, 0, false⟩).finalizeCount := rfl
  have e2 : (lifeRun s0 es).retiredEver =
      (es.foldl lifeStep ⟨s0, 0, false⟩).retiredEver := rfl
  constructor
  · rw [e1, h1]; split <;> omega
  · intro hr
    rw [e1, h1, h2 (by rw [← e2]; exact hr)]
    rfl

/-- Witness for C5: a remove followed by two worker passes finalizes the
task exactly once. -/
theorem finalize_once_witness :
    (lifeRun
        { Flags := 1, MinWait := 0, MaxWait := 0, name := "f",
          triggerTime := 0, onceUsed := false }
        [LifeEvent.producerRemove, LifeEvent.workerPass false,
         LifeEvent.workerPass false]).finalizeCount ≤ 1 ∧
    ((lifeRun
        { Flags := 1, MinWait := 0, MaxWait := 0, name := "f",
          triggerTime := 0, onceUsed := false }
        [LifeEvent.producerRemove, LifeEvent.workerPass false,
         LifeEvent.workerPass false]).retiredEver = true →
      (lifeRun
        { Flags := 1, MinWait := 0, MaxWait := 0, name := "f",
          triggerTime := 0, onceUsed := false }
        [LifeEvent.producerRemove, LifeEvent.workerPass false,
         LifeEvent.workerPass false]).finalizeCount = 1) :=
  finalize_once _ _ rfl

/-! ## C8: gap between successive executions -/

/-- Two consecutive execution starts of a kept task, abstracting one
round through the worker loop: the k-th execution fires at `nowK` with
the pending trigger `sch.triggerTime` strictly in the past; the kept
task is rescheduled by `rescheduleKeep` into the waiting queue, promoted
at some later instant `nowP` not before its waiting trigger, its pending
deadline becomes the waiting trigger plus `MaxWait - MinWait`, and the
next execution fires at `nowK1` strictly after that deadline.  The
monotonic clock never runs backwards between these reads. -/
def ExecutesNextAt (sch : Schedule) (nowK nowK1 : Int) : Prop :=
  sch.triggerTime < nowK ∧
  ∃ nowP, nowK ≤ nowP ∧ nowP ≤ nowK1 ∧
    rescheduleKeep sch nowK ≤ nowP ∧
    rescheduleKeep sch nowK + (sch.MaxWait - sch.MinWait) < nowK1

/-- A repeating burst schedule with a deep backlog. -/
def burstSched : Schedule :=
  { Flags := ScheduleRepeat ||| ScheduleBurst, MinWait := 10, MaxWait := 10,
    name := "b", triggerTime := 0, onceUsed := false }

/-- C8 counterexample: with REPEAT and BURST and a backlog, the next
execution fires immediately at the next tick, less than `MinWait` after
the previous start — the claimed bound fails for this flag combination. -/
theorem min_wait_gap_claim_false :
    0 ≤ burstSched.MinWait ∧ burstSched.MinWait ≤ burstSched.MaxWait ∧
    ExecutesNextAt burstSched 100 100 ∧
    ¬(100 + burstSched.MinWait ≤ 100) := by
  refine ⟨by decide, by decide,
    ⟨by decide, 100, by decide, by decide, by decide, by decide⟩, by decide⟩

/-- C8 amended: successive executions of a kept task start strictly
later than the previous pending deadline plus `MaxWait`; when BURST is
clear they additionally start more than `MaxWait - MinWait` after the
previous start, and more than `MaxWait ≥ MinWait` after it whenever the
catch-up snap fired (the rescheduled trigger had fallen behind `now`).
The unconditional bound `t_(k+1) ≥ t_k + MinWait` does not hold. -/
theorem min_wait_gap_amended (sch : Schedule) (nowK nowK1 : Int)
    (h0 : 0 ≤ sch.MinWait) (h1 : sch.MinWait ≤ sch.MaxWait)
    (h : ExecutesNextAt sch nowK nowK1) :
    sch.triggerTime + sch.MaxWait < nowK1 ∧
    (sch.Flags &&& ScheduleBurst = 0 →
      nowK + (sch.MaxWait - sch.MinWait) < nowK1) ∧
    (sch.Flags &&& ScheduleBurst = 0 → sch.triggerTime + sch.MinWait < nowK →
      nowK + sch.MaxWait < nowK1) := by
  obtain ⟨hlt, nowP, hp1, hp2, hp3, hp4⟩ := h
  simp only [rescheduleKeep] at hp3 hp4
  split_ifs at hp3 hp4 with hc
  · refine ⟨by omega, fun _ => by omega, fun _ _ => by omega⟩
  · have hns : sch.Flags &&& ScheduleBurst = 0 →
        ¬(sch.triggerTime + sch.MinWait < nowK) :=
      fun hb hlt' => hc ⟨hlt', hb⟩
    refine ⟨by omega, fun hb => ?_, fun hb hlt' => absurd hlt' (hns hb)⟩
    have := hns hb
    omega

/-- Witness for C8's amended bounds on a non-burst repeating schedule. -/
theorem min_wait_gap_amended_witness :
    (let sch : Schedule :=
      { Flags := ScheduleRepeat, MinWait := 10, MaxWait := 15, name := "s",
        triggerTime := 0, onceUsed := false }
     sch.triggerTime + sch.MaxWait < 16 ∧
     (sch.Flags &&& ScheduleBurst = 0 →
       10 + (sch.MaxWait - sch.MinWait) < 16) ∧
     (sch.Flags &&& ScheduleBurst = 0 → sch.triggerTime + sch.MinWait < 10 →
       10 + sch.MaxWait < 16)) :=
  min_wait_gap_amended
    { Flags := ScheduleRepeat, MinWait := 10, MaxWait := 15, name := "s",
      triggerTime := 0, onceUsed := false } 10 16 (by decide) (by decide)
    ⟨by decide, 10, by decide, by decide, by decide, by decide⟩

/-! ## C9: the idle ring serves round-robin -/

theorem ringNextN_take (n : Nat) :
    ∀ l : List Schedule, n ≤ l.length →
      (ScheduleRing.nextN n l).1 = (l.rotate 1).take n ∧
      (ScheduleRing.nextN n l).2 = l.rotate n := by
  induction n with
  | zero =>
      intro l _
      exact ⟨by simp [ScheduleRing.nextN], by simp [ScheduleRing.nextN]⟩
  | succ n ih =>
      intro l hlen
      match l with
      | [] => simp at hlen
      | c :: rest =>
          have hrot : (c :: rest).rotate 1 = rest ++ [c] := by
            simpa using List.rotate_cons_succ rest c 0
          have hlen' : n ≤ (rest ++ [c]).length := by
            simp only [List.length_append, List.length_singleton]
            simp only [List.length_cons] at hlen
            omega
          obtain ⟨ih1, ih2⟩ := ih (rest ++ [c]) hlen'
          match hsplit : rest ++ [c] with
          | [] => exact absurd hsplit (by simp)
          | h' :: t' =>
              have htlen : n ≤ t'.length := by
                have : (rest ++ [c]).length = t'.length + 1 := by
                  rw [hsplit]; simp
                simp only [List.length_append, List.length_singleton] at this
                simp only [List.length_cons] at hlen
                omega
              constructor
              · show (ScheduleRing.Next (c :: rest)).1.toList ++
                    (ScheduleRing.nextN n (ScheduleRing.Next (c :: rest)).2).1 =
                    ((c :: rest).rotate 1).take (n + 1)
                rw [hrot]
                simp only [ScheduleRing.Next]
                rw [ih1, hsplit]
                simp only [List.head?, Option.toList, List.take_succ_cons]
                have : (h' :: t').rotate 1 = t' ++ [h'] := by
                  simpa using List.rotate_cons_succ t' h' 0
                rw [this, List.take_append_of_le_length htlen]
                rfl
              · show (ScheduleRing.nextN n (ScheduleRing.Next (c :: rest)).2).2 =
                    (c :: rest).rotate (n + 1)
                simp only [ScheduleRing.Next]
                rw [ih2, List.rotate_cons_succ]

/-- C9: with no insertions or removals interleaved, `n` consecutive
calls to `Next` on a ring of `n` schedules return the elements in the
fixed cyclic order starting one past the cursor — a permutation of the
ring's contents, hence each schedule exactly once. -/
theorem ring_round_robin (r : List Schedule) :
    (ScheduleRing.nextN r.length r).1 = r.rotate 1 ∧
    (ScheduleRing.nextN r.length r).1.Perm r := by
  obtain ⟨h, _⟩ := ringNextN_take r.length r le_rfl
  have hlen : (r.rotate 1).length = r.length := List.length_rotate r 1
  constructor
  · rw [h, ← hlen, List.take_length]
  · rw [h, ← hlen, List.take_length]
    exact List.rotate_perm r 1

/-! ## C7: name registry vs live tasks -/

theorem markRemoved_name (s : Schedule) : s.markRemoved.name = s.name := rfl

theorem markRemoved_flags_set (s : Schedule) :
    s.markRemoved.Flags &&& scheduleRemoved ≠ 0 := by
  simp [Schedule.markRemoved, nat_lor_land_self, scheduleRemoved]

theorem lookupReg_filter_ne (n n' : String) (h : n' ≠ n) :
    ∀ m : List (String × Nat),
      lookupReg (m.filter (fun e => decide (e.1 ≠ n))) n' = lookupReg m n' := by
  intro m
  induction m with
  | nil => rfl
  | cons e rest ih =>
      obtain ⟨a, b⟩ := e
      simp only [List.filter_cons, ne_eq, decide_not] at ih ⊢
      by_cases he : a = n
      · have h2 : ¬(n = n') := fun hx => h hx.symm
        simp [he, lookupReg, h2, ih]
      · by_cases ha : a = n'
        · simp [he, ha, lookupReg, h]
        · simp [he, ha, lookupReg, ih]

theorem lookupReg_deleteName_self (n : String) :
    ∀ m : List (String × Nat), lookupReg (deleteName n m) n = none := by
  intro m
  induction m with
  | nil => rfl
  | cons e rest ih =>
      obtain ⟨a, b⟩ := e
      simp only [deleteName, List.filter_cons, ne_eq, decide_not] at ih ⊢
      by_cases he : a = n
      · simpa [he] using ih
      · simpa [he, lookupReg] using ih

theorem lookupReg_deleteName_ne (n n' : String) (h : n' ≠ n)
    (m : List (String × Nat)) :
    lookupReg (deleteName n m) n' = lookupReg m n' :=
  lookupReg_filter_ne n n' h m

theorem lookupReg_regInsert (n : String) (i : Nat) (m : List (String × Nat))
    (n' : String) :
    lookupReg (regInsert n i m) n' =
      if n' = n then some i else lookupReg m n' := by
  have e : lookupReg (regInsert n i m) n' =
      if n = n' then some i
      else lookupReg (m.filter (fun x => decide (x.1 ≠ n))) n' := rfl
  by_cases h : n' = n
  · rw [e, if_pos h.symm, if_pos h]
  · rw [e, if_neg (fun hx => h hx.symm), if_neg h]
    exact lookupReg_filter_ne n n' h m

theorem lookupReg_deleteName (n n' : String) (m : List (String × Nat)) :
    lookupReg (deleteName n m) n' = if n' = n then none else lookupReg m n' := by
  by_cases h : n' = n
  · rw [if_pos h, h]
    exact lookupReg_deleteName_self n m
  · rw [if_neg h]
    exact lookupReg_filter_ne n n' h m

theorem lookupId_setRemovedBit (i j : Nat) :
    ∀ st : List (Nat × Schedule),
      lookupId (setRemovedBit i st) j =
        if j = i then (lookupId st j).map Schedule.markRemoved
        else lookupId st j := by
  intro st
  induction st with
  | nil => simp [setRemovedBit, lookupId]
  | cons e rest ih =>
      obtain ⟨k, sch⟩ := e
      have estep : lookupId (setRemovedBit i ((k, sch) :: rest)) j =
          lookupId ((if k = i then (k, sch.markRemoved) else (k, sch)) ::
            setRemovedBit i rest) j := rfl
      have econs : ∀ (x : Schedule) (L : List (Nat × Schedule)),
          lookupId ((k, x) :: L) j = if k = j then some x else lookupId L j :=
        fun x L => rfl
      rw [estep]
      by_cases hk : k = i
      · rw [if_pos hk, econs]
        by_cases hj : k = j
        · rw [if_pos hj, if_pos (hj.symm.trans hk), econs, if_pos hj]
          rfl
        · rw [if_neg hj, ih]
          by_cases hji : j = i
          · rw [if_pos hji, if_pos hji, econs, if_neg hj]
          · rw [if_neg hji, if_neg hji, econs, if_neg hj]
      · rw [if_neg hk, econs]
        by_cases hj : k = j
        · rw [if_pos hj, if_neg (fun h : j = i => hk (hj.trans h)), econs,
            if_pos hj]
        · rw [if_neg hj, ih]
          by_cases hji : j = i
          · rw [if_pos hji, if_pos hji, econs, if_neg hj]
          · rw [if_neg hji, if_neg hji, econs, if_neg hj]

theorem setRemovedBit_keys (i : Nat) (st : List (Nat × Schedule)) :
    (setRemovedBit i st).map Prod.fst = st.map Prod.fst := by
  induction st with
  | nil => rfl
  | cons e rest ih =>
      obtain ⟨k, sch⟩ := e
      by_cases hk : k = i <;>
        simp_all [setRemovedBit]

theorem lookupId_mem_keys (st : List (Nat × Schedule)) (i : Nat)
    (sch : Schedule) (h : lookupId st i = some sch) :
    i ∈ st.map Prod.fst := by
  induction st with
  | nil => exact absurd h (by simp [lookupId])
  | cons e rest ih =>
      obtain ⟨k, sch'⟩ := e
      rw [lookupId] at h
      by_cases hk : k = i
      · subst hk; simp
      · rw [if_neg hk] at h
        simp only [List.map_cons, List.mem_cons]
        exact Or.inr (ih h)

theorem deleteName_keys_sublist (n : String) (m : List (String × Nat)) :
    ((deleteName n m).map Prod.fst).Sublist (m.map Prod.fst) :=
  List.Sublist.map _ (List.filter_sublist m)

theorem nodup_keys_regInsert (n : String) (i : Nat) (m : List (String × Nat))
    (h : (m.map Prod.fst).Nodup) : ((regInsert n i m).map Prod.fst).Nodup := by
  simp only [regInsert, List.map_cons]
  refine List.nodup_cons.mpr ⟨?_, h.sublist (deleteName_keys_sublist n m)⟩
  intro hmem
  simp only [List.mem_map, List.mem_filter] at hmem
  obtain ⟨e, ⟨_, hpe⟩, hfst⟩ := hmem
  rw [hfst] at hpe
  simpa using hpe

/-- Inductive invariant of the registry-level model: ids in the store
and the retired list are below the allocation counter, the registry keys
are duplicate-free, every registry entry resolves to a not-yet-retired
task with that name, every not-yet-retired task is registered under its
name, and every retired task carries the removed bit. -/
def coreInv (s : SchedCore) : Prop :=
  (∀ k ∈ s.store.map Prod.fst, k < s.nextId) ∧
  (∀ i ∈ s.retired, i < s.nextId) ∧
  (s.reg.map Prod.fst).Nodup ∧
  (∀ nm i, lookupReg s.reg nm = some i →
      ∃ sch, lookupId s.store i = some sch ∧ sch.name = nm ∧
        i ∉ s.retired) ∧
  (∀ i sch, lookupId s.store i = some sch → i ∉ s.retired →
      lookupReg s.reg sch.name = some i) ∧
  (∀ i ∈ s.retired, ∀ sch, lookupId s.store i = some sch →
      sch.Flags &&& scheduleRemoved ≠ 0)

theorem coreInv_init : coreInv coreInit := by
  refine ⟨?_, ?_, ?_, ?_, ?_, ?_⟩ <;> simp [coreInit, lookupReg, lookupId]

theorem lookupId_cons (k : Nat) (x : Schedule) (L : List (Nat × Schedule))
    (i : Nat) :
    lookupId ((k, x) :: L) i = if k = i then some x else lookupId L i := rfl

/-- The fresh record a successful `addOp` creates. -/
def newSched (nm : String) (flags : Nat) : Schedule :=
  { Flags := flags, MinWait := 0, MaxWait := 0, name := nm,
    triggerTime := 0, onceUsed := false }

/-- The state a successful `addOp` produces. -/
def addedState (s : SchedCore) (nm : String) (flags : Nat) : SchedCore :=
  { store := (s.nextId, newSched nm flags) :: s.store
    reg := regInsert nm s.nextId s.reg
    retired := s.retired
    nextId := s.nextId + 1 }

theorem addOp_fresh (s : SchedCore) (nm : String) (flags : Nat)
    (hfresh : lookupReg s.reg nm = none) :
    (s.addOp nm flags).1 = addedState s nm flags := by
  simp [SchedCore.addOp, hfresh, addedState, newSched]

theorem coreInv_add (s : SchedCore) (nm : String) (flags : Nat)
    (h : coreInv s) (hfresh : lookupReg s.reg nm = none) :
    coreInv (s.addOp nm flags).1 := by
  obtain ⟨h1, h2, h3, h4, h5, h6⟩ := h
  rw [addOp_fresh s nm flags hfresh]
  refine ⟨?_, ?_, ?_, ?_, ?_, ?_⟩
  · intro k hk
    simp only [addedState, List.map_cons, List.mem_cons] at hk
    show k < s.nextId + 1
    rcases hk with rfl | hk
    · omega
    · exact lt_trans (h1 k hk) (by omega)
  · intro i hi
    show i < s.nextId + 1
    exact lt_trans (h2 i hi) (by omega)
  · exact nodup_keys_regInsert nm s.nextId s.reg h3
  · intro nm' i hl
    rw [show (addedState s nm flags).reg = regInsert nm s.nextId s.reg
      from rfl, lookupReg_regInsert] at hl
    rw [show (addedState s nm flags).store =
      (s.nextId, newSched nm flags) :: s.store from rfl]
    by_cases hn : nm' = nm
    · rw [if_pos hn] at hl
      injection hl with hl
      subst hl
      refine ⟨newSched nm flags, ?_, hn ▸ rfl, ?_⟩
      · rw [lookupId_cons, if_pos rfl]
      · intro hmem
        exact absurd (h2 _ hmem) (lt_irrefl _)
    · rw [if_neg hn] at hl
      obtain ⟨sch, hsch, hname, hret⟩ := h4 nm' i hl
      have hik : s.nextId ≠ i := by
        intro he
        exact absurd (h1 i (lookupId_mem_keys _ _ _ hsch)) (by omega)
      refine ⟨sch, ?_, hname, hret⟩
      rw [lookupId_cons, if_neg hik]
      exact hsch
  · intro i sch hsch hret
    rw [show (addedState s nm flags).store =
      (s.nextId, newSched nm flags) :: s.store from rfl, lookupId_cons] at hsch
    rw [show (addedState s nm flags).reg = regInsert nm s.nextId s.reg
      from rfl, lookupReg_regInsert]
    by_cases hik : s.nextId = i
    · rw [if_pos hik] at hsch
      injection hsch with hsch
      subst hsch
      rw [show (newSched nm flags).name = nm from rfl, if_pos rfl, hik]
    · rw [if_neg hik] at hsch
      have hr := h5 i sch hsch hret
      rw [if_neg (fun he : sch.name = nm => by
        rw [he] at hr
        rw [hr] at hfresh
        exact Option.noConfusion hfresh)]
      exact hr
  · intro i hi sch hsch
    have hik : s.nextId ≠ i := by
      intro he
      exact absurd (h2 i hi) (by omega)
    rw [show (addedState s nm flags).store =
      (s.nextId, newSched nm flags) :: s.store from rfl, lookupId_cons,
      if_neg hik] at hsch
    exact h6 i hi sch hsch

theorem coreInv_remove (s : SchedCore) (nm : String) (h : coreInv s) :
    coreInv (s.removeOp nm) := by
  obtain ⟨h1, h2, h3, h4, h5, h6⟩ := h
  unfold SchedCore.removeOp
  cases hr : lookupReg s.reg nm with
  | none => exact ⟨h1, h2, h3, h4, h5, h6⟩
  | some i =>
      dsimp only
      cases hs : lookupId s.store i with
      | none => exact ⟨h1, h2, h3, h4, h5, h6⟩
      | some old =>
          dsimp only
          split
          · exact ⟨h1, h2, h3, h4, h5, h6⟩
          · refine ⟨?_, h2, h3, ?_, ?_, ?_⟩
            · intro k hk
              rw [show ({ s with store := setRemovedBit i s.store } :
                  SchedCore).store = setRemovedBit i s.store from rfl,
                setRemovedBit_keys] at hk
              exact h1 k hk
            · intro nm' j hl
              obtain ⟨sch, hsch, hname, hret⟩ := h4 nm' j hl
              rw [show ({ s with store := setRemovedBit i s.store } :
                  SchedCore).store = setRemovedBit i s.store from rfl,
                lookupId_setRemovedBit]
              by_cases hji : j = i
              · subst hji
                rw [if_pos rfl, hsch]
                exact ⟨sch.markRemoved, rfl, by rw [markRemoved_name, hname],
                  hret⟩
              · rw [if_neg hji]
                exact ⟨sch, hsch, hname, hret⟩
            · intro j sch' hsch' hret
              rw [show ({ s with store := setRemovedBit i s.store } :
                  SchedCore).store = setRemovedBit i s.store from rfl,
                lookupId_setRemovedBit] at hsch'
              by_cases hji : j = i
              · subst hji
                rw [if_pos rfl, hs] at hsch'
                simp only [Option.map_some'] at hsch'
                injection hsch' with hsch'
                subst hsch'
                rw [markRemoved_name]
                exact h5 j old hs hret
              · rw [if_neg hji] at hsch'
                exact h5 j sch' hsch' hret
            · intro j hj sch' hsch'
              rw [show ({ s with store := setRemovedBit i s.store } :
                  SchedCore).store = setRemovedBit i s.store from rfl,
                lookupId_setRemovedBit] at hsch'
              by_cases hji : j = i
              · subst hji
                rw [if_pos rfl, hs] at hsch'
                simp only [Option.map_some'] at hsch'
                injection hsch' with hsch'
                subst hsch'
                exact markRemoved_flags_set old
              · rw [if_neg hji] at hsch'
                exact h6 j hj sch' hsch'

/-- The state `retireOp` produces when id `i` resolves to `sch`. -/
def retiredState (s : SchedCore) (i : Nat) (sch : Schedule) : SchedCore :=
  { store := setRemovedBit i s.store
    reg := deleteName sch.name s.reg
    retired := i :: s.retired
    nextId := s.nextId }

theorem retiredState_store (s : SchedCore) (i : Nat) (sch : Schedule) :
    (retiredState s i sch).store = setRemovedBit i s.store := rfl

theorem retiredState_reg (s : SchedCore) (i : Nat) (sch : Schedule) :
    (retiredState s i sch).reg = deleteName sch.name s.reg := rfl

theorem retireOp_eq (s : SchedCore) (i : Nat) (sch : Schedule)
    (hs : lookupId s.store i = some sch) :
    s.retireOp i = retiredState s i sch := by
  unfold SchedCore.retireOp
  rw [hs]
  rfl

theorem coreInv_retire (s : SchedCore) (i : Nat) (h : coreInv s)
    (hguard : i ∉ s.retired) : coreInv (s.retireOp i) := by
  obtain ⟨h1, h2, h3, h4, h5, h6⟩ := h
  cases hs : lookupId s.store i with
  | none =>
      have : s.retireOp i = s := by
        unfold SchedCore.retireOp
        rw [hs]
      rw [this]
      exact ⟨h1, h2, h3, h4, h5, h6⟩
  | some sch =>
      rw [retireOp_eq s i sch hs]
      have hreg : lookupReg s.reg sch.name = some i := h5 i sch hs hguard
      refine ⟨?_, ?_, ?_, ?_, ?_, ?_⟩
      · intro k hk
        rw [retiredState_store, setRemovedBit_keys] at hk
        exact h1 k hk
      · intro j hj
        rcases List.mem_cons.mp hj with rfl | hj2
        · exact h1 j (lookupId_mem_keys _ _ _ hs)
        · exact h2 j hj2
      · exact List.Nodup.sublist (deleteName_keys_sublist sch.name s.reg) h3
      · intro nm' j hl
        rw [retiredState_reg, lookupReg_deleteName] at hl
        by_cases hn : nm' = sch.name
        · rw [if_pos hn] at hl
          exact Option.noConfusion hl
        · rw [if_neg hn] at hl
          obtain ⟨sch', hsch', hname, hret⟩ := h4 nm' j hl
          have hji : j ≠ i := by
            intro he
            subst he
            rw [hs] at hsch'
            injection hsch' with he2
            rw [← he2] at hname
            exact hn hname.symm
          refine ⟨sch', ?_, hname, ?_⟩
          · rw [retiredState_store, lookupId_setRemovedBit, if_neg hji]
            exact hsch'
          · intro hm
            rcases List.mem_cons.mp hm with he | hm2
            · exact hji he
            · exact hret hm2
      · intro j sch' hsch' hret
        have hji : j ≠ i := fun he => hret (he ▸ List.mem_cons_self i _)
        have hjr : j ∉ s.retired := fun hm => hret (List.mem_cons_of_mem _ hm)
        rw [retiredState_store, lookupId_setRemovedBit, if_neg hji] at hsch'
        have hjreg := h5 j sch' hsch' hjr
        have hnames : sch'.name ≠ sch.name := by
          intro he
          rw [he, hreg] at hjreg
          injection hjreg with he2
          exact hji he2.symm
        rw [retiredState_reg, lookupReg_deleteName, if_neg hnames]
        exact hjreg
      · intro j hj sch' hsch'
        rw [retiredState_store, lookupId_setRemovedBit] at hsch'
        by_cases hji : j = i
        · subst hji
          rw [if_pos rfl, hs] at hsch'
          simp only [Option.map_some'] at hsch'
          injection hsch' with hsch'
          subst hsch'
          exact markRemoved_flags_set sch
        · rw [if_neg hji] at hsch'
          have hj2 : j ∈ s.retired := by
            rcases List.mem_cons.mp hj with he | hm
            · exact absurd he hji
            · exact hm
          exact h6 j hj2 sch' hsch'

theorem core_reachable_inv (s : SchedCore) (h : CoreReachable s) :
    coreInv s := by
  induction h with
  | init => exact coreInv_init
  | add s nm flags _ hfresh ih => exact coreInv_add s nm flags ih hfresh
  | remove s nm _ ih => exact coreInv_remove s nm ih
  | retire s i _ hguard ih => exact coreInv_retire s i ih hguard

/-- C7 counterexample: after add X, remove X, add X, and worker
retirement of the first X instance, the second X instance is live but
the registry has no entry for it — the claimed bijection between
registry entries and live tasks fails at this reachable state (already
after remove X, before retirement, the entry maps to a non-live task). -/
theorem registry_bijection_claim_false : ¬ liveRegBijection coreTrace := by
  intro h
  have h1 := h.1 1 (newSched "X" ScheduleRepeat) (by decide) (by decide)
  exact absurd h1 (by decide)

/-- C7 amended: at every state reachable when `Add` only uses names not
currently bound in the registry (no reuse of a removed-but-unretired
name): the registry keys are duplicate-free, every live task (present,
removed bit clear) is registered under its name, and every registry
entry resolves to a not-yet-retired task of that name — such a task may
already carry the REMOVED bit while it awaits worker retirement.  With
name reuse permitted, retiring the first instance deletes the second
instance's entry and the bijection fails. -/
theorem registry_live_amended (s : SchedCore) (h : CoreReachable s) :
    (s.reg.map Prod.fst).Nodup ∧
    (∀ i sch, lookupId s.store i = some sch →
        sch.Flags &&& scheduleRemoved = 0 →
        lookupReg s.reg sch.name = some i) ∧
    (∀ nm i, lookupReg s.reg nm = some i →
        ∃ sch, lookupId s.store i = some sch ∧ sch.name = nm ∧
          i ∉ s.retired) := by
  obtain ⟨_, _, h3, h4, h5, h6⟩ := core_reachable_inv s h
  refine ⟨h3, ?_, h4⟩
  intro i sch hs hlive
  by_cases hi : i ∈ s.retired
  · exact absurd hlive (h6 i hi sch hs)
  · exact h5 i sch hs hi

/-- Witness for C7's amended statement at the initial state. -/
theorem registry_live_amended_witness :
    (coreInit.reg.map Prod.fst).Nodup ∧
    (∀ i sch, lookupId coreInit.store i = some sch →
        sch.Flags &&& scheduleRemoved = 0 →
        lookupReg coreInit.reg sch.name = some i) ∧
    (∀ nm i, lookupReg coreInit.reg nm = some i →
        ∃ sch, lookupId coreInit.store i = some sch ∧ sch.name = nm ∧
          i ∉ coreInit.retired) :=
  registry_live_amended coreInit CoreReachable.init

end Goodbus
